import Mathlib

/-!
# Sine-Wave-Generator: block pipeline of `PixelPowerSolution.cpp`

A shallow embedding of the program's three classes (`SineWaveGenerator`,
`StaticGainControl`, `Delay`) and of the body of the `while (true)` loop of
`main`, followed by the properties established about them.

Conventions of the embedding.

* The sample type is a parameter `α`.  Data-movement results hold for any
  `α` with the operations used; results about the oscillator take `α` to be
  an ordered field (arithmetic exact, `PI` the decimal `3.14` of the source)
  and `sin` a parameter, instantiated with `Real.sin` where a value matters.
* A `float*` block is a `List α`; every subscript is checked, and an access
  outside the object, or a `%` by zero, ends the run with a `Fault`
  (the behaviour the C++ standard leaves undefined).
* `for (int i = 0; i < n; ++i) body` is `forLoop body n`.
* The threads of `main` run their bodies under one mutex, so a cycle runs
  the `processBlock` calls one after another in the order in which the
  threads obtain the lock; that order is an explicit argument.
* The array `float buffer[BLOCK_SIZE]` of a cycle is not initialised; its
  contents are an argument of the cycle, of type `StackBuffer`.
-/

namespace PixelPower

/-- Ways in which a run leaves defined behaviour. -/
inductive Fault where
  /-- Subscript `buffer[index]` outside a block of `size` samples. -/
  | bufferOutOfRange (index size : Nat)
  /-- Read `delay_line[index]` with `index ≥ delay_line.size()`. -/
  | delayReadOutOfRange (index size : Nat)
  /-- Write `delay_line[index]` with `index ≥ delay_line.size()`. -/
  | delayWriteOutOfRange (index size : Nat)
  /-- Evaluation of `% delay_line.size()` with an empty `delay_line`. -/
  | moduloByZero
  deriving DecidableEq

/-- Source: `const int BLOCK_SIZE = 480;`  (Kept folded during elaboration, so that
a loop of `BLOCK_SIZE` iterations is unrolled only where a proof asks for it.) -/
@[irreducible]
def BLOCK_SIZE : Nat := 480

/-- Source: `const int SAMPLE_RATE = 48000;` -/
def SAMPLE_RATE : Nat := 48000

/-- Source: `const float PI = 3.14;` -/
def PI {α : Type} [Field α] : α := 3.14

/-- Loop `for (int i = 0; i < n; ++i) body(i)`: the iterations `0, …, n-1`
in ascending order, stopping at the first fault. -/
def forLoop {σ : Type} (body : Nat → σ → Except Fault σ) : Nat → σ → Except Fault σ
  | 0, s => .ok s
  | n + 1, s =>
    match forLoop body n s with
    | .ok s' => body n s'
    | .error e => .error e

/-! ## SineWaveGenerator -/

/-- Fields of `class SineWaveGenerator`. -/
structure SineWaveGenerator (α : Type) where
  frequency : α
  phase : α

/-- Constructor `SineWaveGenerator(float frequency)`: phase starts at `0.0f`. -/
def SineWaveGenerator.new {α : Type} [Zero α] (frequency : α) : SineWaveGenerator α :=
  { frequency := frequency, phase := 0 }

/-- Body of the loop of `generateBlock` for index `i`:
`buffer[i] = sin(phase); phase += 2.0f * PI * frequency / SAMPLE_RATE;
 if (phase >= 2.0f * PI) phase -= 2.0f * PI;` -/
def SineWaveGenerator.generateBody {α : Type} [LinearOrderedField α] (sin : α → α) (i : Nat)
    (st : SineWaveGenerator α × List α) : Except Fault (SineWaveGenerator α × List α) :=
  if i < st.2.length then
    let buffer := st.2.set i (sin st.1.phase)
    let phase := st.1.phase + 2 * PI * st.1.frequency / (SAMPLE_RATE : α)
    let phase := if phase ≥ 2 * PI then phase - 2 * PI else phase
    .ok ({ st.1 with phase := phase }, buffer)
  else .error (.bufferOutOfRange i st.2.length)

/-- Method `void generateBlock(float* buffer)`: returns the generator after the
call together with the filled buffer. -/
def SineWaveGenerator.generateBlock {α : Type} [LinearOrderedField α] (sin : α → α)
    (self : SineWaveGenerator α) (buffer : List α) :
    Except Fault (SineWaveGenerator α × List α) :=
  forLoop (SineWaveGenerator.generateBody sin) BLOCK_SIZE (self, buffer)

/-- Effect of one iteration of the loop of `generateBlock` on `phase`: the increment
`2.0f * PI * frequency / SAMPLE_RATE`, then one conditional subtraction of `2.0f * PI`. -/
def phaseStep {α : Type} [LinearOrderedField α] (frequency phase : α) : α :=
  if phase + 2 * PI * frequency / (SAMPLE_RATE : α) ≥ 2 * PI then
    phase + 2 * PI * frequency / (SAMPLE_RATE : α) - 2 * PI
  else phase + 2 * PI * frequency / (SAMPLE_RATE : α)

/-- The single-sample step iterated `n` times from `phase`, in the words of the
specification: emit `sin(phase)`, add the increment, subtract `2 * PI` once if the
phase has reached `2 * PI`.  Returns the samples emitted and the final phase. -/
def iterateSampleStep {α : Type} [LinearOrderedField α] (sin : α → α) (frequency : α) :
    Nat → α → List α × α
  | 0, phase => ([], phase)
  | n + 1, phase =>
    (sin phase :: (iterateSampleStep sin frequency n (phaseStep frequency phase)).1,
      (iterateSampleStep sin frequency n (phaseStep frequency phase)).2)

/-! ## StaticGainControl -/

/-- Field of `class StaticGainControl`. -/
structure StaticGainControl (α : Type) where
  gain : α

/-- Body of the loop of `StaticGainControl::processBlock`: `buffer[i] *= gain;` -/
def StaticGainControl.processBody {α : Type} [Mul α] (i : Nat)
    (st : StaticGainControl α × List α) : Except Fault (StaticGainControl α × List α) :=
  match st.2[i]? with
  | some x => .ok (st.1, st.2.set i (x * st.1.gain))
  | none => .error (.bufferOutOfRange i st.2.length)

/-- Method `StaticGainControl::processBlock(float* buffer)`. -/
def StaticGainControl.processBlock {α : Type} [Mul α] (self : StaticGainControl α)
    (buffer : List α) : Except Fault (StaticGainControl α × List α) :=
  forLoop StaticGainControl.processBody BLOCK_SIZE (self, buffer)

/-! ## Delay -/

/-- Field of `class Delay`. -/
structure Delay (α : Type) where
  delay_line : List α

/-- Constructor `Delay(int delay_size) : delay_line(delay_size, 0.0f)`. -/
def Delay.new {α : Type} [Zero α] (delay_size : Nat) : Delay α :=
  { delay_line := List.replicate delay_size 0 }

/-- Local state of the loop of `Delay::processBlock`: the object, the block and
the local `delay_index`. -/
structure DelayLoop (α : Type) where
  self : Delay α
  buffer : List α
  delay_index : Nat

/-- Body of the loop of `Delay::processBlock` for index `i`:
`float delayedSample = delay_line[i]; delay_line[delay_index] = buffer[i];
 buffer[i] = delayedSample; delay_index = (delay_index + 1) % delay_line.size();` -/
def Delay.processBody {α : Type} (i : Nat) (st : DelayLoop α) : Except Fault (DelayLoop α) :=
  match st.self.delay_line[i]? with
  | none => .error (.delayReadOutOfRange i st.self.delay_line.length)
  | some delayedSample =>
    match st.buffer[i]? with
    | none => .error (.bufferOutOfRange i st.buffer.length)
    | some x =>
      if st.delay_index < st.self.delay_line.length then
        let delay_line := st.self.delay_line.set st.delay_index x
        let buffer := st.buffer.set i delayedSample
        if delay_line.length = 0 then .error .moduloByZero
        else .ok { self := { delay_line := delay_line }, buffer := buffer,
                   delay_index := (st.delay_index + 1) % delay_line.length }
      else .error (.delayWriteOutOfRange st.delay_index st.self.delay_line.length)

/-- Method `Delay::processBlock(float* buffer)`: `int delay_index = 0;` then the loop. -/
def Delay.processBlock {α : Type} (self : Delay α) (buffer : List α) :
    Except Fault (Delay α × List α) :=
  match forLoop Delay.processBody BLOCK_SIZE
      { self := self, buffer := buffer, delay_index := 0 } with
  | .ok st => .ok (st.self, st.buffer)
  | .error e => .error e

/-! ## Processor and the loop of `main` -/

/-- The two classes deriving from `class Processor`. -/
inductive Processor (α : Type) where
  | staticGainControl (p : StaticGainControl α)
  | delay (p : Delay α)

/-- Virtual call `it->processBlock(buffer)`. -/
def Processor.processBlock {α : Type} [Mul α] (self : Processor α) (buffer : List α) :
    Except Fault (Processor α × List α) :=
  match self with
  | .staticGainControl p =>
    match p.processBlock buffer with
    | .ok (p', b) => .ok (.staticGainControl p', b)
    | .error e => .error e
  | .delay p =>
    match p.processBlock buffer with
    | .ok (p', b) => .ok (.delay p', b)
    | .error e => .error e

/-- The threads of one cycle.  Thread `j` runs
`{ lock_guard lock(mutex); processors[j]->processBlock(buffer); }`; `order` lists the
threads in the order in which they obtain the mutex.  The bodies run one after
another in that order on the shared buffer. -/
def runThreads {α : Type} [Mul α] :
    List Nat → List (Processor α) → List α → Except Fault (List (Processor α) × List α)
  | [], processors, buffer => .ok (processors, buffer)
  | j :: order, processors, buffer =>
    match processors[j]? with
    | none => runThreads order processors buffer
    | some p =>
      match p.processBlock buffer with
      | .ok (p', b) => runThreads order (processors.set j p') b
      | .error e => .error e

/-- A lock order is a schedule of the cycle when every thread occurs in it once. -/
def IsSchedule (order : List Nat) (n : Nat) : Prop := List.Perm order (List.range n)

/-- The processors applied in list order: `processors[0]`, then `processors[1]`, … -/
def runInListOrder {α : Type} [Mul α] (processors : List (Processor α)) (buffer : List α) :
    Except Fault (List (Processor α) × List α) :=
  runThreads (List.range processors.length) processors buffer

/-- Objects of `main` that live across cycles. -/
structure MainState (α : Type) where
  sine_wave : SineWaveGenerator α
  processors : List (Processor α)

/-- State of `main` on entry to the loop:
`SineWaveGenerator sine_wave(1000.0f)`, then `StaticGainControl(2.0f)` and
`Delay(4800)` pushed in this order. -/
def MainState.init {α : Type} [LinearOrderedField α] : MainState α :=
  { sine_wave := SineWaveGenerator.new 1000
    processors := [.staticGainControl { gain := 2 }, .delay (Delay.new 4800)] }

/-- Contents of an array `float buffer[BLOCK_SIZE]`: `BLOCK_SIZE` samples. -/
def StackBuffer (α : Type) : Type := { l : List α // l.length = BLOCK_SIZE }

/-- One iteration of `while (true)`: `float buffer[BLOCK_SIZE]` (contents `stack`,
indeterminate), `generateBlock`, the threads, and the block that is printed. -/
def mainCycle {α : Type} [LinearOrderedField α] (sin : α → α) (st : MainState α)
    (order : List Nat) (stack : StackBuffer α) : Except Fault (MainState α × List α) :=
  match st.sine_wave.generateBlock sin stack.val with
  | .error e => .error e
  | .ok (g, buffer) =>
    match runThreads order st.processors buffer with
    | .error e => .error e
    | .ok (ps, out) => .ok ({ sine_wave := g, processors := ps }, out)

/-- Successive calls of a block operation on one object: the state is carried from
call to call and the blocks produced are collected in order. -/
def feedBlocks {σ ι β : Type} (call : σ → ι → Except Fault (σ × β)) :
    σ → List ι → Except Fault (σ × List β)
  | s, [] => .ok (s, [])
  | s, x :: xs =>
    match call s x with
    | .error e => .error e
    | .ok (s', y) =>
      match feedBlocks call s' xs with
      | .error e => .error e
      | .ok (s'', ys) => .ok (s'', y :: ys)

/-- The first cycles of `main`, one `(lock order, stack contents)` pair per cycle. -/
def mainLoop {α : Type} [LinearOrderedField α] (sin : α → α) (st : MainState α)
    (cycles : List (List Nat × StackBuffer α)) : Except Fault (MainState α × List (List α)) :=
  feedBlocks (fun s c => mainCycle sin s c.1 c.2) st cycles

/-! ## The stores into the block, recorded

The two `processBlock` loops once more, statement by statement as above, with a log of the
indices `i` of the stores `buffer[i] = …` in the order in which they are executed. -/

/-- Body of the loop of `StaticGainControl::processBlock` with the log: the store of
`buffer[i] *= gain;` appends `i`. -/
def StaticGainControl.processBodyTraced {α : Type} [Mul α] (i : Nat)
    (st : (StaticGainControl α × List α) × List Nat) :
    Except Fault ((StaticGainControl α × List α) × List Nat) :=
  match st.1.2[i]? with
  | some x => .ok ((st.1.1, st.1.2.set i (x * st.1.1.gain)), st.2 ++ [i])
  | none => .error (.bufferOutOfRange i st.1.2.length)

/-- Method `StaticGainControl::processBlock(float* buffer)` with the log, empty on entry. -/
def StaticGainControl.processBlockTraced {α : Type} [Mul α] (self : StaticGainControl α)
    (buffer : List α) : Except Fault ((StaticGainControl α × List α) × List Nat) :=
  forLoop StaticGainControl.processBodyTraced BLOCK_SIZE ((self, buffer), [])

/-- Body of the loop of `Delay::processBlock` with the log: the store
`buffer[i] = delayedSample;` appends `i` (the store into `delay_line` is not a store into the
block and is not logged). -/
def Delay.processBodyTraced {α : Type} (i : Nat) (st : DelayLoop α × List Nat) :
    Except Fault (DelayLoop α × List Nat) :=
  match st.1.self.delay_line[i]? with
  | none => .error (.delayReadOutOfRange i st.1.self.delay_line.length)
  | some delayedSample =>
    match st.1.buffer[i]? with
    | none => .error (.bufferOutOfRange i st.1.buffer.length)
    | some x =>
      if st.1.delay_index < st.1.self.delay_line.length then
        let delay_line := st.1.self.delay_line.set st.1.delay_index x
        let buffer := st.1.buffer.set i delayedSample
        let log := st.2 ++ [i]
        if delay_line.length = 0 then .error .moduloByZero
        else .ok ({ self := { delay_line := delay_line }, buffer := buffer,
                    delay_index := (st.1.delay_index + 1) % delay_line.length }, log)
      else .error (.delayWriteOutOfRange st.1.delay_index st.1.self.delay_line.length)

/-- Method `Delay::processBlock(float* buffer)` with the log, empty on entry. -/
def Delay.processBlockTraced {α : Type} (self : Delay α) (buffer : List α) :
    Except Fault ((Delay α × List α) × List Nat) :=
  match forLoop Delay.processBodyTraced BLOCK_SIZE
      ({ self := self, buffer := buffer, delay_index := 0 }, []) with
  | .ok st => .ok ((st.1.self, st.1.buffer), st.2)
  | .error e => .error e

/-! ## Auxiliary facts on lists and on `forLoop` -/

theorem forLoop_succ {σ : Type} (body : Nat → σ → Except Fault σ) (n : Nat) (s : σ) :
    forLoop body (n + 1) s =
      (match forLoop body n s with
       | .ok s' => body n s'
       | .error e => .error e) := rfl

theorem forLoop_succ_of_ok {σ : Type} {body : Nat → σ → Except Fault σ} {n : Nat} {s s' : σ}
    (h : forLoop body n s = .ok s') : forLoop body (n + 1) s = body n s' := by
  rw [forLoop_succ, h]

theorem forLoop_error_mono {σ : Type} {body : Nat → σ → Except Fault σ} {m : Nat} {s : σ}
    {e : Fault} (h : forLoop body m s = .error e) (n : Nat) (hmn : m ≤ n) :
    forLoop body n s = .error e := by
  induction n, hmn using Nat.le_induction with
  | base => exact h
  | succ k _ ih => rw [forLoop_succ, ih]

theorem getElem?_splice {α : Type} (pre b : List α) (n : Nat) (hpre : pre.length = n)
    (hn : n < b.length) : (pre ++ b.drop n)[n]? = some b[n] := by
  subst hpre
  rw [List.getElem?_append_right (le_refl _)]
  simp [List.getElem?_drop, List.getElem?_eq_getElem hn]

theorem set_splice {α : Type} (pre b : List α) (n : Nat) (hpre : pre.length = n)
    (hn : n < b.length) (v : α) :
    (pre ++ b.drop n).set n v = (pre ++ [v]) ++ b.drop (n + 1) := by
  subst hpre
  rw [List.set_append_right _ _ (le_refl _), Nat.sub_self, List.drop_eq_getElem_cons hn,
    List.set_cons_zero, List.append_assoc, List.singleton_append]

theorem take_succ_splice {α : Type} (b : List α) (n : Nat) (hn : n < b.length) :
    b.take (n + 1) = b.take n ++ [b[n]] := by
  rw [List.take_succ, List.getElem?_eq_getElem hn]
  rfl

/-! ## Closed forms of the three loops -/

theorem StaticGainControl.forLoop_gain_body {α : Type} [Mul α] (self : StaticGainControl α)
    (buffer : List α) (n : Nat) (hn : n ≤ buffer.length) :
    forLoop StaticGainControl.processBody n (self, buffer) =
      .ok (self, (buffer.take n).map (fun x => x * self.gain) ++ buffer.drop n) := by
  induction n with
  | zero => simp [forLoop]
  | succ k ih =>
    have hk : k < buffer.length := hn
    have hlen : ((buffer.take k).map (fun x => x * self.gain)).length = k := by
      simp [List.length_take, Nat.min_eq_left (Nat.le_of_lt hk)]
    rw [forLoop_succ_of_ok (ih (Nat.le_of_lt hk))]
    simp only [StaticGainControl.processBody, getElem?_splice _ _ _ hlen hk,
      set_splice _ _ _ hlen hk, take_succ_splice _ _ hk, List.map_append, List.map_cons,
      List.map_nil]

theorem StaticGainControl.processBlock_gain_eq {α : Type} [Mul α] (self : StaticGainControl α)
    (buffer : List α) (hlen : buffer.length = BLOCK_SIZE) :
    self.processBlock buffer = .ok (self, buffer.map (fun x => x * self.gain)) := by
  unfold StaticGainControl.processBlock
  rw [StaticGainControl.forLoop_gain_body self buffer BLOCK_SIZE (le_of_eq hlen.symm)]
  rw [← hlen, List.take_length, List.drop_length, List.append_nil]

theorem Delay.forLoop_delay_body {α : Type} (line buffer : List α) (n : Nat)
    (hline : n ≤ line.length) (hbuf : n ≤ buffer.length) :
    forLoop Delay.processBody n { self := { delay_line := line }, buffer := buffer, delay_index := 0 } =
      .ok { self := { delay_line := buffer.take n ++ line.drop n }
            buffer := line.take n ++ buffer.drop n
            delay_index := n % line.length } := by
  induction n with
  | zero => simp [forLoop]
  | succ k ih =>
    have hkl : k < line.length := hline
    have hkb : k < buffer.length := hbuf
    have h1 : (buffer.take k).length = k := by
      simp [List.length_take, Nat.min_eq_left (Nat.le_of_lt hkb)]
    have h2 : (line.take k).length = k := by
      simp [List.length_take, Nat.min_eq_left (Nat.le_of_lt hkl)]
    have h3 : (buffer.take k ++ line.drop k).length = line.length := by
      simp [List.length_append, List.length_take, List.length_drop,
        Nat.min_eq_left (Nat.le_of_lt hkb)]
      omega
    have h4 : line.length ≠ 0 := by omega
    rw [forLoop_succ_of_ok (ih (Nat.le_of_lt hkl) (Nat.le_of_lt hkb))]
    simp only [Delay.processBody, getElem?_splice _ _ _ h1 hkl, getElem?_splice _ _ _ h2 hkb,
      Nat.mod_eq_of_lt hkl, h3, hkl, if_true, List.length_set, h4, if_false,
      set_splice _ _ _ h1 hkl, set_splice _ _ _ h2 hkb, take_succ_splice _ _ hkl,
      take_succ_splice _ _ hkb]
    have h5 : (buffer.take k ++ [buffer[k]] ++ line.drop (k + 1)).length = line.length := by
      simp only [List.length_append, h1, List.length_drop, List.length_singleton]
      omega
    rw [h5, if_neg h4]

theorem Delay.processBlock_delay_eq {α : Type} (self : Delay α) (buffer : List α)
    (hline : BLOCK_SIZE ≤ self.delay_line.length) (hbuf : buffer.length = BLOCK_SIZE) :
    self.processBlock buffer =
      .ok ({ delay_line := buffer ++ self.delay_line.drop BLOCK_SIZE },
           self.delay_line.take BLOCK_SIZE) := by
  unfold Delay.processBlock
  rw [Delay.forLoop_delay_body self.delay_line buffer BLOCK_SIZE hline (le_of_eq hbuf.symm)]
  simp only
  rw [← hbuf, List.take_length, List.drop_length, List.append_nil]

theorem Delay.processBlock_short {α : Type} (self : Delay α) (buffer : List α)
    (hline : self.delay_line.length < BLOCK_SIZE) (hbuf : self.delay_line.length ≤ buffer.length) :
    self.processBlock buffer =
      .error (.delayReadOutOfRange self.delay_line.length self.delay_line.length) := by
  unfold Delay.processBlock
  have h := Delay.forLoop_delay_body self.delay_line buffer self.delay_line.length
    (le_refl _) hbuf
  have h3 : (buffer.take self.delay_line.length ++
      self.delay_line.drop self.delay_line.length).length = self.delay_line.length := by
    rw [List.length_append, List.length_take, List.length_drop, Nat.min_eq_left hbuf,
      Nat.sub_self, Nat.add_zero]
  have hbody := forLoop_succ_of_ok h
  simp only [Delay.processBody, List.getElem?_eq_none (le_of_eq h3), h3] at hbody
  rw [forLoop_error_mono hbody BLOCK_SIZE hline]

theorem SineWaveGenerator.forLoop_generateBody {α : Type} [LinearOrderedField α] (sin : α → α)
    (self : SineWaveGenerator α) (buffer : List α) (n : Nat) (hn : n ≤ buffer.length) :
    forLoop (SineWaveGenerator.generateBody sin) n (self, buffer) =
      .ok ({ frequency := self.frequency, phase := (phaseStep self.frequency)^[n] self.phase },
           (List.range n).map (fun i => sin ((phaseStep self.frequency)^[i] self.phase))
             ++ buffer.drop n) := by
  induction n with
  | zero => simp [forLoop]
  | succ k ih =>
    have hk : k < buffer.length := hn
    have hlen : ((List.range k).map
        (fun i => sin ((phaseStep self.frequency)^[i] self.phase))).length = k := by simp
    have hlen2 : ((List.range k).map
        (fun i => sin ((phaseStep self.frequency)^[i] self.phase)) ++ buffer.drop k).length
          = buffer.length := by
      rw [List.length_append, hlen, List.length_drop]; omega
    rw [forLoop_succ_of_ok (ih (Nat.le_of_lt hk))]
    simp only [SineWaveGenerator.generateBody, hlen2, hk, if_true, set_splice _ _ _ hlen hk,
      List.range_succ, List.map_append, List.map_cons, List.map_nil,
      Function.iterate_succ_apply', phaseStep]

theorem SineWaveGenerator.generateBlock_eq {α : Type} [LinearOrderedField α] (sin : α → α)
    (self : SineWaveGenerator α) (buffer : List α) (hlen : buffer.length = BLOCK_SIZE) :
    self.generateBlock sin buffer =
      .ok ({ frequency := self.frequency,
             phase := (phaseStep self.frequency)^[BLOCK_SIZE] self.phase },
           (List.range BLOCK_SIZE).map
             (fun i => sin ((phaseStep self.frequency)^[i] self.phase))) := by
  unfold SineWaveGenerator.generateBlock
  rw [SineWaveGenerator.forLoop_generateBody sin self buffer BLOCK_SIZE (le_of_eq hlen.symm),
    ← hlen, List.drop_length, List.append_nil]

theorem iterateSampleStep_eq {α : Type} [LinearOrderedField α] (sin : α → α) (f : α) (n : Nat)
    (phase : α) :
    iterateSampleStep sin f n phase =
      ((List.range n).map (fun i => sin ((phaseStep f)^[i] phase)), (phaseStep f)^[n] phase) := by
  induction n generalizing phase with
  | zero => simp [iterateSampleStep]
  | succ k ih =>
    rw [iterateSampleStep, ih, List.range_succ_eq_map]
    simp [Function.comp_def]

theorem iterateSampleStep_add {α : Type} [LinearOrderedField α] (sin : α → α) (f : α)
    (m n : Nat) (phase : α) :
    iterateSampleStep sin f (m + n) phase =
      ((iterateSampleStep sin f m phase).1 ++
          (iterateSampleStep sin f n (iterateSampleStep sin f m phase).2).1,
        (iterateSampleStep sin f n (iterateSampleStep sin f m phase).2).2) := by
  induction m generalizing phase with
  | zero => simp [iterateSampleStep]
  | succ k ih =>
    rw [Nat.succ_add, iterateSampleStep, ih]
    simp [iterateSampleStep]

theorem SineWaveGenerator.generateBlock_iterate {α : Type} [LinearOrderedField α] (sin : α → α)
    (self : SineWaveGenerator α) (buffer : List α) (hlen : buffer.length = BLOCK_SIZE) :
    self.generateBlock sin buffer =
      .ok ({ frequency := self.frequency
             phase := (iterateSampleStep sin self.frequency BLOCK_SIZE self.phase).2 },
           (iterateSampleStep sin self.frequency BLOCK_SIZE self.phase).1) := by
  rw [SineWaveGenerator.generateBlock_eq sin self buffer hlen, iterateSampleStep_eq]

theorem SineWaveGenerator.feedBlocks_generateBlock {α : Type} [LinearOrderedField α]
    (sin : α → α) (buffers : List (List α)) (hlen : ∀ b ∈ buffers, b.length = BLOCK_SIZE)
    (self : SineWaveGenerator α) :
    ∃ blocks : List (List α),
      feedBlocks (SineWaveGenerator.generateBlock sin) self buffers =
        .ok ({ frequency := self.frequency
               phase := (iterateSampleStep sin self.frequency
                 (buffers.length * BLOCK_SIZE) self.phase).2 }, blocks) ∧
      blocks.length = buffers.length ∧
      blocks.flatten =
        (iterateSampleStep sin self.frequency (buffers.length * BLOCK_SIZE) self.phase).1 := by
  induction buffers generalizing self with
  | nil =>
    refine ⟨[], ?_, rfl, ?_⟩
    · rw [List.length_nil, Nat.zero_mul]; rfl
    · rw [List.length_nil, Nat.zero_mul]; rfl
  | cons b bs ih =>
    have hb : b.length = BLOCK_SIZE := hlen b (List.mem_cons_self _ _)
    obtain ⟨blocks, h1, h2, h3⟩ := ih (fun c hc => hlen c (List.mem_cons_of_mem _ hc))
      { frequency := self.frequency
        phase := (iterateSampleStep sin self.frequency BLOCK_SIZE self.phase).2 }
    refine ⟨(iterateSampleStep sin self.frequency BLOCK_SIZE self.phase).1 :: blocks, ?_, ?_, ?_⟩
    · rw [feedBlocks, SineWaveGenerator.generateBlock_iterate sin self b hb]
      simp only [h1]
      rw [List.length_cons, Nat.succ_mul, Nat.add_comm, iterateSampleStep_add]
    · simp [h2]
    · rw [List.flatten_cons, h3, List.length_cons, Nat.succ_mul, Nat.add_comm (bs.length * _),
        iterateSampleStep_add]

/-! ## The processors of `main` under the two lock orders -/

theorem BLOCK_SIZE_eq : BLOCK_SIZE = 480 := by unfold BLOCK_SIZE; rfl

theorem length_map_mul_append_drop {α : Type} [Mul α] (g : α) (buffer line : List α)
    (hline : BLOCK_SIZE ≤ line.length) (hbuf : buffer.length = BLOCK_SIZE) :
    BLOCK_SIZE ≤ (buffer ++ line.drop BLOCK_SIZE).length ∧
      ((line.take BLOCK_SIZE).map (fun x => x * g)).length = BLOCK_SIZE ∧
      (line.take BLOCK_SIZE).length = BLOCK_SIZE ∧
      (buffer.map (fun x => x * g)).length = BLOCK_SIZE := by
  refine ⟨?_, ?_, ?_, ?_⟩
  · rw [List.length_append, hbuf]; omega
  · rw [List.length_map, List.length_take, Nat.min_eq_left hline]
  · rw [List.length_take, Nat.min_eq_left hline]
  · rw [List.length_map, hbuf]

theorem Processor.processBlock_gain {α : Type} [Mul α] (g : α) (buffer : List α)
    (hbuf : buffer.length = BLOCK_SIZE) :
    (Processor.staticGainControl { gain := g }).processBlock buffer =
      .ok (.staticGainControl { gain := g }, buffer.map (fun x => x * g)) := by
  show (match StaticGainControl.processBlock { gain := g } buffer with
    | .ok (p', b) => Except.ok (Processor.staticGainControl p', b)
    | .error e => .error e) = _
  rewrite [StaticGainControl.processBlock_gain_eq _ buffer hbuf]
  exact Eq.refl _

theorem Processor.processBlock_delay {α : Type} [Mul α] (line buffer : List α)
    (hline : BLOCK_SIZE ≤ line.length) (hbuf : buffer.length = BLOCK_SIZE) :
    (Processor.delay { delay_line := line }).processBlock buffer =
      .ok (.delay { delay_line := buffer ++ line.drop BLOCK_SIZE }, line.take BLOCK_SIZE) := by
  show (match Delay.processBlock { delay_line := line } buffer with
    | .ok (p', b) => Except.ok (Processor.delay p', b)
    | .error e => .error e) = _
  rewrite [Delay.processBlock_delay_eq { delay_line := line } buffer hline hbuf]
  exact Eq.refl _

theorem runThreads_gain_delay {α : Type} [Mul α] (g : α) (line buffer : List α)
    (hline : BLOCK_SIZE ≤ line.length) (hbuf : buffer.length = BLOCK_SIZE) :
    runThreads [0, 1] [.staticGainControl { gain := g }, .delay { delay_line := line }] buffer =
      .ok ([.staticGainControl { gain := g },
            .delay { delay_line := buffer.map (fun x => x * g) ++ line.drop BLOCK_SIZE }],
           line.take BLOCK_SIZE) := by
  have h := length_map_mul_append_drop g buffer line hline hbuf
  rw [runThreads]
  simp only [List.getElem?_cons_zero]
  rw [Processor.processBlock_gain g buffer hbuf]
  simp only [List.set_cons_zero]
  rw [runThreads]
  simp only [List.getElem?_cons_succ, List.getElem?_cons_zero]
  rw [Processor.processBlock_delay line _ hline h.2.2.2]
  simp only [List.set_cons_succ, List.set_cons_zero]
  rw [runThreads]

theorem runThreads_delay_gain {α : Type} [Mul α] (g : α) (line buffer : List α)
    (hline : BLOCK_SIZE ≤ line.length) (hbuf : buffer.length = BLOCK_SIZE) :
    runThreads [1, 0] [.staticGainControl { gain := g }, .delay { delay_line := line }] buffer =
      .ok ([.staticGainControl { gain := g },
            .delay { delay_line := buffer ++ line.drop BLOCK_SIZE }],
           (line.take BLOCK_SIZE).map (fun x => x * g)) := by
  have h := length_map_mul_append_drop g buffer line hline hbuf
  rw [runThreads]
  simp only [List.getElem?_cons_succ, List.getElem?_cons_zero]
  rw [Processor.processBlock_delay line buffer hline hbuf]
  simp only [List.set_cons_succ, List.set_cons_zero]
  rw [runThreads]
  simp only [List.getElem?_cons_zero]
  rw [Processor.processBlock_gain g _ h.2.2.1]
  simp only [List.set_cons_zero]
  rw [runThreads]

theorem runThreads_swapped {α : Type} [Mul α] (g : α) (line buffer : List α)
    (hline : BLOCK_SIZE ≤ line.length) (hbuf : buffer.length = BLOCK_SIZE) :
    runThreads [0, 1] [.delay { delay_line := line }, .staticGainControl { gain := g }] buffer =
      .ok ([.delay { delay_line := buffer ++ line.drop BLOCK_SIZE },
            .staticGainControl { gain := g }],
           (line.take BLOCK_SIZE).map (fun x => x * g)) := by
  have h := length_map_mul_append_drop g buffer line hline hbuf
  rw [runThreads]
  simp only [List.getElem?_cons_zero]
  rw [Processor.processBlock_delay line buffer hline hbuf]
  simp only [List.set_cons_zero]
  rw [runThreads]
  simp only [List.getElem?_cons_succ, List.getElem?_cons_zero]
  rw [Processor.processBlock_gain g _ h.2.2.1]
  simp only [List.set_cons_succ, List.set_cons_zero]
  rw [runThreads]

theorem take_block_append {α : Type} (buffer rest : List α) (hbuf : buffer.length = BLOCK_SIZE) :
    (buffer ++ rest).take BLOCK_SIZE = buffer := by
  rw [← hbuf, List.take_left]

/-! ## The phase recurrence -/

theorem two_PI_pos {α : Type} [LinearOrderedField α] : (0 : α) < 2 * PI := by
  unfold PI; norm_num

theorem sampleRate_pos {α : Type} [LinearOrderedField α] : (0 : α) < (SAMPLE_RATE : α) := by
  unfold SAMPLE_RATE; norm_num

/-- With a frequency that is not positive the wrap never fires: the phase only decreases. -/
theorem iterate_phaseStep_of_nonpos {α : Type} [LinearOrderedField α] (f phase : α)
    (hf : f ≤ 0) (hp : phase < 2 * PI) (n : Nat) :
    (phaseStep f)^[n] phase = phase + n * (2 * PI * f / (SAMPLE_RATE : α)) := by
  have hinc : 2 * PI * f / (SAMPLE_RATE : α) ≤ 0 :=
    div_nonpos_of_nonpos_of_nonneg
      (mul_nonpos_of_nonneg_of_nonpos (le_of_lt two_PI_pos) hf) (le_of_lt sampleRate_pos)
  induction n with
  | zero => simp
  | succ k ih =>
    rw [Function.iterate_succ_apply', ih, phaseStep]
    have hk : (0 : α) ≤ (k : α) := Nat.cast_nonneg k
    have hlt : ¬ (phase + k * (2 * PI * f / (SAMPLE_RATE : α)) + 2 * PI * f / (SAMPLE_RATE : α)
        ≥ 2 * PI) := by
      have := mul_nonpos_of_nonneg_of_nonpos hk hinc
      intro h
      linarith
    rw [if_neg hlt]
    push_cast
    ring

/-- With a frequency of at least `SAMPLE_RATE` the increment is at least `2 * PI`, the wrap fires
at every sample and removes only one turn: the phase grows without bound. -/
theorem iterate_phaseStep_of_large {α : Type} [LinearOrderedField α] (f phase : α)
    (hf : (SAMPLE_RATE : α) ≤ f) (hp : 0 ≤ phase) (n : Nat) :
    (phaseStep f)^[n] phase = phase + n * (2 * PI * f / (SAMPLE_RATE : α) - 2 * PI) := by
  have hT : (0 : α) < 2 * PI := two_PI_pos
  have hinc : 2 * PI ≤ 2 * PI * f / (SAMPLE_RATE : α) := by
    rw [le_div_iff₀ sampleRate_pos]
    exact mul_le_mul_of_nonneg_left hf (le_of_lt hT)
  induction n with
  | zero => simp
  | succ k ih =>
    rw [Function.iterate_succ_apply', ih, phaseStep]
    have hk : (0 : α) ≤ (k : α) * (2 * PI * f / (SAMPLE_RATE : α) - 2 * PI) :=
      mul_nonneg (Nat.cast_nonneg k) (by linarith)
    rw [if_pos (by linarith)]
    push_cast
    ring

/-- For `0 ≤ f ≤ SAMPLE_RATE` one conditional subtraction keeps the phase in `[0, 2 * PI)`, and
the phase differs from the accumulated angle by a whole number of turns of `2 * PI`. -/
theorem iterate_phaseStep_wrapped {α : Type} [LinearOrderedField α] (f phase : α)
    (hf0 : 0 ≤ f) (hf1 : f ≤ (SAMPLE_RATE : α)) (hp0 : 0 ≤ phase) (hp1 : phase < 2 * PI)
    (n : Nat) :
    (0 ≤ (phaseStep f)^[n] phase ∧ (phaseStep f)^[n] phase < 2 * PI) ∧
      ∃ z : ℤ, phase + n * (2 * PI * f / (SAMPLE_RATE : α)) =
        (phaseStep f)^[n] phase + z • (2 * PI) := by
  have hT : (0 : α) < 2 * PI := two_PI_pos
  have hinc0 : 0 ≤ 2 * PI * f / (SAMPLE_RATE : α) :=
    div_nonneg (mul_nonneg (le_of_lt hT) hf0) (le_of_lt sampleRate_pos)
  have hinc1 : 2 * PI * f / (SAMPLE_RATE : α) ≤ 2 * PI := by
    rw [div_le_iff₀ sampleRate_pos]
    exact mul_le_mul_of_nonneg_left hf1 (le_of_lt hT)
  induction n with
  | zero => exact ⟨⟨by simpa using hp0, by simpa using hp1⟩, 0, by simp⟩
  | succ k ih =>
    obtain ⟨⟨h0, h1⟩, z, hz⟩ := ih
    rw [Function.iterate_succ_apply']
    by_cases hw : (phaseStep f)^[k] phase + 2 * PI * f / (SAMPLE_RATE : α) ≥ 2 * PI
    · have hs : phaseStep f ((phaseStep f)^[k] phase) =
          (phaseStep f)^[k] phase + 2 * PI * f / (SAMPLE_RATE : α) - 2 * PI := by
        rw [phaseStep, if_pos hw]
      rw [hs]
      refine ⟨⟨by linarith, by linarith⟩, z + 1, ?_⟩
      push_cast
      simp only [zsmul_eq_mul] at hz ⊢
      push_cast
      linear_combination hz
    · have hs : phaseStep f ((phaseStep f)^[k] phase) =
          (phaseStep f)^[k] phase + 2 * PI * f / (SAMPLE_RATE : α) := by
        rw [phaseStep, if_neg hw]
      rw [hs]
      refine ⟨⟨by linarith, by linarith [not_le.mp hw]⟩, z, ?_⟩
      push_cast
      simp only [zsmul_eq_mul] at hz ⊢
      linear_combination hz

/-! ## A stream of blocks through one `Delay` -/

theorem drop_block_append {α : Type} (buffer rest : List α) (hbuf : buffer.length = BLOCK_SIZE) :
    (buffer ++ rest).drop BLOCK_SIZE = rest := by
  rw [← hbuf, List.drop_left]

/-- Every call hands out the first `BLOCK_SIZE` cells of `delay_line` and stores the incoming
block there: the stream comes out one block late, whatever the length of `delay_line`. -/
theorem Delay.feedBlocks_processBlock {α : Type} (b : List α) (bs : List (List α))
    (hlen : ∀ c ∈ b :: bs, c.length = BLOCK_SIZE) (line : List α)
    (hline : BLOCK_SIZE ≤ line.length) :
    feedBlocks Delay.processBlock { delay_line := line } (b :: bs) =
      .ok ({ delay_line := (b :: bs).getLast (List.cons_ne_nil b bs) ++ line.drop BLOCK_SIZE },
           line.take BLOCK_SIZE :: (b :: bs).dropLast) := by
  induction bs generalizing b line with
  | nil =>
    have hb : b.length = BLOCK_SIZE := hlen b (List.mem_cons_self _ _)
    rw [feedBlocks, Delay.processBlock_delay_eq _ b hline hb]
    rfl
  | cons c cs ih =>
    have hb : b.length = BLOCK_SIZE := hlen b (List.mem_cons_self _ _)
    have hline2 : BLOCK_SIZE ≤ (b ++ line.drop BLOCK_SIZE).length := by
      rw [List.length_append, hb]; omega
    rw [feedBlocks, Delay.processBlock_delay_eq _ b hline hb]
    simp only
    rw [ih c (fun d hd => hlen d (List.mem_cons_of_mem _ hd)) _ hline2,
      take_block_append _ _ hb, drop_block_append _ _ hb]
    rfl

/-! ## One cycle of `main` -/

theorem length_samples {α : Type} [LinearOrderedField α] (sin : α → α) (f phase : α) :
    ((List.range BLOCK_SIZE).map (fun i => sin ((phaseStep f)^[i] phase))).length = BLOCK_SIZE := by
  rw [List.length_map, List.length_range]

/-- A cycle is `generateBlock` followed by the threads. -/
theorem mainCycle_eq_of {α : Type} [LinearOrderedField α] (sin : α → α) (st : MainState α)
    (order : List Nat) (stack : StackBuffer α) (gen : SineWaveGenerator α)
    (buffer out : List α) (ps : List (Processor α))
    (hgen : st.sine_wave.generateBlock sin stack.val = .ok (gen, buffer))
    (hrun : runThreads order st.processors buffer = .ok (ps, out)) :
    mainCycle sin st order stack = .ok (MainState.mk gen ps, out) := by
  unfold mainCycle
  rewrite [hgen]
  simp only
  rewrite [hrun]
  exact Eq.refl _

theorem feedBlocks_nil {σ ι β : Type} (call : σ → ι → Except Fault (σ × β)) (s : σ) :
    feedBlocks call s [] = .ok (s, []) := rfl

theorem feedBlocks_cons_of {σ ι β : Type} (call : σ → ι → Except Fault (σ × β)) (s s' s'' : σ)
    (x : ι) (xs : List ι) (y : β) (ys : List β) (h1 : call s x = .ok (s', y))
    (h2 : feedBlocks call s' xs = .ok (s'', ys)) :
    feedBlocks call s (x :: xs) = .ok (s'', y :: ys) := by
  rw [feedBlocks, h1]
  simp only
  rw [h2]

/-- A cycle in which the thread of `processors[0]` (gain) obtains the mutex first. -/
theorem mainCycle_gain_first {α : Type} [LinearOrderedField α] (sin : α → α)
    (gen : SineWaveGenerator α) (g : α) (line : List α) (hline : BLOCK_SIZE ≤ line.length)
    (stack : StackBuffer α) :
    mainCycle sin
        (MainState.mk gen [Processor.staticGainControl (StaticGainControl.mk g),
                           Processor.delay (Delay.mk line)]) [0, 1] stack =
      Except.ok
        (MainState.mk
          (SineWaveGenerator.mk gen.frequency ((phaseStep gen.frequency)^[BLOCK_SIZE] gen.phase))
          [Processor.staticGainControl (StaticGainControl.mk g),
           Processor.delay (Delay.mk
             (List.map (fun x => x * g) ((List.range BLOCK_SIZE).map
                (fun i => sin ((phaseStep gen.frequency)^[i] gen.phase)))
              ++ line.drop BLOCK_SIZE))],
         line.take BLOCK_SIZE) :=
  mainCycle_eq_of sin _ _ stack _ _ _ _
    (SineWaveGenerator.generateBlock_eq sin gen _ stack.property)
    (runThreads_gain_delay g line _ hline (length_samples sin _ _))

/-- A cycle in which the thread of `processors[1]` (delay) obtains the mutex first. -/
theorem mainCycle_delay_first {α : Type} [LinearOrderedField α] (sin : α → α)
    (gen : SineWaveGenerator α) (g : α) (line : List α) (hline : BLOCK_SIZE ≤ line.length)
    (stack : StackBuffer α) :
    mainCycle sin
        (MainState.mk gen [Processor.staticGainControl (StaticGainControl.mk g),
                           Processor.delay (Delay.mk line)]) [1, 0] stack =
      Except.ok
        (MainState.mk
          (SineWaveGenerator.mk gen.frequency ((phaseStep gen.frequency)^[BLOCK_SIZE] gen.phase))
          [Processor.staticGainControl (StaticGainControl.mk g),
           Processor.delay (Delay.mk
             ((List.range BLOCK_SIZE).map
                (fun i => sin ((phaseStep gen.frequency)^[i] gen.phase))
              ++ line.drop BLOCK_SIZE))],
         (line.take BLOCK_SIZE).map (fun x => x * g)) :=
  mainCycle_eq_of sin _ _ stack _ _ _ _
    (SineWaveGenerator.generateBlock_eq sin gen _ stack.property)
    (runThreads_delay_gain g line _ hline (length_samples sin _ _))

theorem one_lt_BLOCK_SIZE : 1 < BLOCK_SIZE := by rw [BLOCK_SIZE_eq]; omega

theorem getElem?_samples_one {α : Type} [LinearOrderedField α] (sin : α → α) (f phase : α) :
    ((List.range BLOCK_SIZE).map (fun i => sin ((phaseStep f)^[i] phase)))[1]? =
      some (sin (phaseStep f phase)) := by
  rw [List.getElem?_map, List.getElem?_range one_lt_BLOCK_SIZE]
  rfl

/-- First step of the shipped generator: `0 + 2 * 3.14 * 1000 / 48000`, below the wrap. -/
theorem phaseStep_1000_zero {α : Type} [LinearOrderedField α] :
    phaseStep (1000 : α) 0 = 2 * 3.14 * 1000 / 48000 := by
  unfold phaseStep PI SAMPLE_RATE
  rw [if_neg (by norm_num)]
  norm_num

theorem sin_first_step_pos : 0 < Real.sin (2 * 3.14 * 1000 / 48000) := by
  apply Real.sin_pos_of_pos_of_lt_pi
  · norm_num
  · have := Real.pi_gt_d2
    norm_num at this ⊢
    linarith

/-! ## C1: the order of the stages within a cycle of `main` -/

/-- C1 (evaluation at the failing input). Run the shipped program for one cycle in which the
threads obtain the mutex in list order; in the next cycle let the thread of `Delay(4800)`
obtain the mutex before the thread of `StaticGainControl(2.0)`, which is a schedule of the two
threads. With exact real arithmetic the block emitted by that cycle has
`sin(2 * 3.14 * 1000 / 48000) * 2 * 2` at index `1`, while applying the processors in list
order to the same generated block gives `sin(2 * 3.14 * 1000 / 48000) * 2` there: the emitted
block is the reverse-order result, not the list-order one. -/
theorem mainCycle_lock_order_matters (stack0 stack1 : StackBuffer ℝ) :
    ∃ (st : MainState ℝ) (out0 : List ℝ) (g : SineWaveGenerator ℝ) (B threaded inOrder : List ℝ)
      (ps ps' : List (Processor ℝ)),
      mainCycle Real.sin MainState.init [0, 1] stack0 = .ok (st, out0) ∧
      IsSchedule [1, 0] st.processors.length ∧
      st.sine_wave.generateBlock Real.sin stack1.val = .ok (g, B) ∧
      mainCycle Real.sin st [1, 0] stack1 = .ok (MainState.mk g ps, threaded) ∧
      runInListOrder st.processors B = .ok (ps', inOrder) ∧
      threaded[1]? = some (Real.sin (2 * 3.14 * 1000 / 48000) * 2 * 2) ∧
      inOrder[1]? = some (Real.sin (2 * 3.14 * 1000 / 48000) * 2) ∧
      threaded ≠ inOrder := by
  have hline : BLOCK_SIZE ≤ (List.replicate 4800 (0 : ℝ)).length := by
    rw [List.length_replicate, BLOCK_SIZE_eq]; omega
  have hsamples := length_samples Real.sin (1000 : ℝ) 0
  have hmap : (List.map (fun x => x * (2 : ℝ)) ((List.range BLOCK_SIZE).map
      (fun i => Real.sin ((phaseStep (1000 : ℝ))^[i] 0)))).length = BLOCK_SIZE := by
    rw [List.length_map, hsamples]
  have hline2 : BLOCK_SIZE ≤ (List.map (fun x => x * (2 : ℝ)) ((List.range BLOCK_SIZE).map
      (fun i => Real.sin ((phaseStep (1000 : ℝ))^[i] 0)))
        ++ (List.replicate 4800 (0 : ℝ)).drop BLOCK_SIZE).length := by
    rw [List.length_append, hmap]; omega
  have hthreaded : (List.map (fun x => x * (2 : ℝ)) (List.map (fun x => x * (2 : ℝ))
      ((List.range BLOCK_SIZE).map (fun i => Real.sin ((phaseStep (1000 : ℝ))^[i] 0)))))[1]? =
        some (Real.sin (2 * 3.14 * 1000 / 48000) * 2 * 2) := by
    rw [List.getElem?_map, List.getElem?_map, getElem?_samples_one, phaseStep_1000_zero]
    rfl
  have hinOrder : (List.map (fun x => x * (2 : ℝ))
      ((List.range BLOCK_SIZE).map (fun i => Real.sin ((phaseStep (1000 : ℝ))^[i] 0))))[1]? =
        some (Real.sin (2 * 3.14 * 1000 / 48000) * 2) := by
    rw [List.getElem?_map, getElem?_samples_one, phaseStep_1000_zero]
    rfl
  refine ⟨_, _, _, _, _, _, _, _,
    mainCycle_gain_first Real.sin (SineWaveGenerator.mk 1000 0) 2 _ hline stack0,
    List.Perm.swap 0 1 [],
    SineWaveGenerator.generateBlock_eq Real.sin _ _ stack1.property,
    mainCycle_delay_first Real.sin _ 2 _ hline2 stack1,
    runThreads_gain_delay 2 _ _ hline2 (length_samples Real.sin _ _), ?_, ?_, ?_⟩
  · rw [take_block_append _ _ hmap]; exact hthreaded
  · rw [take_block_append _ _ hmap]; exact hinOrder
  · rw [take_block_append _ _ hmap]
    intro h
    have h1 := hthreaded
    rw [h, hinOrder] at h1
    have h2 := Option.some.inj h1
    have h3 := sin_first_step_pos
    linarith

/-! ## C2: the delay on a stream -/

/-- C2 (evaluation at the failing input). A fresh `Delay(4800)` fed two blocks of `BLOCK_SIZE`
ones returns normally and its output at global sample index `480` is `1`, the input of index
`0`: the stream is delayed by one block, not by `L = 4800` samples, for which the output at
every index below `4800` would be `0`. -/
theorem Delay.processBlock_4800_one_block_late :
    ∃ (st : Delay ℤ) (out : List (List ℤ)),
      feedBlocks Delay.processBlock (Delay.new 4800)
          [List.replicate 480 (1 : ℤ), List.replicate 480 (1 : ℤ)] = .ok (st, out) ∧
      out.flatten[480]? = some 1 ∧ (480 < 4800 ∧ (1 : ℤ) ≠ 0) := by
  have hlen : ∀ c ∈ [List.replicate 480 (1 : ℤ), List.replicate 480 (1 : ℤ)],
      c.length = BLOCK_SIZE := by
    intro c hc
    simp only [List.mem_cons, List.mem_singleton, List.not_mem_nil, or_false, or_self] at hc
    rw [hc, List.length_replicate, BLOCK_SIZE_eq]
  have hline : BLOCK_SIZE ≤ (List.replicate 4800 (0 : ℤ)).length := by
    rw [List.length_replicate, BLOCK_SIZE_eq]; omega
  refine ⟨_, _, Delay.feedBlocks_processBlock _ _ hlen _ hline, ?_, by omega, by omega⟩
  have hpre : (List.take BLOCK_SIZE (List.replicate 4800 (0 : ℤ))).length = 480 := by
    rw [List.length_take, List.length_replicate, BLOCK_SIZE_eq]; rfl
  show (List.take BLOCK_SIZE (List.replicate 4800 (0 : ℤ)) ++
      (List.replicate 480 (1 : ℤ) ++ []))[480]? = some 1
  rw [List.getElem?_append_right (le_of_eq hpre), hpre, List.append_nil, Nat.sub_self,
    List.getElem?_replicate, if_pos (by omega)]

/-! ## C3: the gain stage -/

/-- C3. For every gain `g` and every block `B` of `BLOCK_SIZE` samples,
`StaticGainControl(g).processBlock(B)` returns normally, leaves the stage with gain `g`,
and the buffer then holds `B[i] * g` at every index `i` of the block (and has kept its
length `BLOCK_SIZE`). -/
theorem StaticGainControl.processBlock_scales {α : Type} [Mul α] (g : α) (B : List α)
    (hB : B.length = BLOCK_SIZE) :
    ∃ out : List α,
      StaticGainControl.processBlock { gain := g } B = .ok ({ gain := g }, out) ∧
      out.length = BLOCK_SIZE ∧
      ∀ (i : Nat) (hi : i < B.length), out[i]? = some (B[i] * g) := by
  refine ⟨B.map (fun x => x * g), StaticGainControl.processBlock_gain_eq _ B hB, ?_, ?_⟩
  · rw [List.length_map, hB]
  · intro i hi
    rw [List.getElem?_map, List.getElem?_eq_getElem hi]
    rfl

theorem StaticGainControl.processBlock_scales_witness :
    (List.replicate 480 (3 : ℤ)).length = BLOCK_SIZE ∧
    ∃ out : List ℤ,
      StaticGainControl.processBlock ({ gain := 2 } : StaticGainControl ℤ)
          (List.replicate 480 (3 : ℤ)) = .ok ({ gain := 2 }, out) ∧
      out.length = BLOCK_SIZE ∧
      ∀ (i : Nat) (hi : i < (List.replicate 480 (3 : ℤ)).length),
        out[i]? = some ((List.replicate 480 (3 : ℤ))[i] * 2) :=
  ⟨by rw [List.length_replicate, BLOCK_SIZE_eq],
   StaticGainControl.processBlock_scales 2 (List.replicate 480 (3 : ℤ))
     (by rw [List.length_replicate, BLOCK_SIZE_eq])⟩

/-! ## C4: the generated samples against `sin(2πft / SAMPLE_RATE)` -/

/-- C4 (evaluation at the failing input `f = 1000`, `t = 1`). With exact real arithmetic, the
sample of index `1` of the first block of a fresh `SineWaveGenerator(1000)` is
`sin(2 * 3.14 * 1000 / 48000)`, computed with the program's `PI = 3.14`, and this differs from
`sin(2 * π * 1000 * 1 / 48000)` with `π` the mathematical constant. -/
theorem SineWaveGenerator.generateBlock_sample_one (buffer : StackBuffer ℝ) :
    ∃ (g : SineWaveGenerator ℝ) (out : List ℝ),
      (SineWaveGenerator.new (1000 : ℝ)).generateBlock Real.sin buffer.val = .ok (g, out) ∧
      out[1]? = some (Real.sin (2 * 3.14 * 1000 / 48000)) ∧
      Real.sin (2 * 3.14 * 1000 / 48000) ≠ Real.sin (2 * Real.pi * 1000 * 1 / 48000) := by
  refine ⟨_, _, SineWaveGenerator.generateBlock_eq Real.sin _ _ buffer.property, ?_, ?_⟩
  · rw [getElem?_samples_one]
    show some (Real.sin (phaseStep (1000 : ℝ) 0)) = _
    rw [phaseStep_1000_zero]
  · apply ne_of_lt
    have h1 := Real.pi_gt_d2
    have h2 := Real.pi_lt_d2
    apply Real.sin_lt_sin_of_lt_of_le_pi_div_two
    · norm_num at h1 ⊢; linarith
    · norm_num at h2 ⊢; linarith
    · norm_num at h1 ⊢; linarith

/-! ## C5: the phase after `k` calls -/

/-- Phase of a generator after `k` calls of `generateBlock`, through the recurrence. -/
theorem SineWaveGenerator.feedBlocks_phase {α : Type} [LinearOrderedField α] (sin : α → α)
    (buffers : List (List α)) (hlen : ∀ b ∈ buffers, b.length = BLOCK_SIZE)
    (self : SineWaveGenerator α) :
    ∃ blocks : List (List α),
      feedBlocks (SineWaveGenerator.generateBlock sin) self buffers =
        .ok ({ frequency := self.frequency
               phase := (phaseStep self.frequency)^[buffers.length * BLOCK_SIZE] self.phase },
             blocks) := by
  obtain ⟨blocks, h, -, -⟩ := SineWaveGenerator.feedBlocks_generateBlock sin buffers hlen self
  rw [iterateSampleStep_eq] at h
  exact ⟨blocks, h⟩

/-- C5 (counterexample). With exact rational arithmetic, after one call of `generateBlock` a
fresh `SineWaveGenerator(-1000)` has phase `-314/5` and a fresh `SineWaveGenerator(96000)` has
phase `15072/5`; neither is the representative in `[0, 2 * PI)` of
`1 * BLOCK_SIZE * (2 * PI) * f / SAMPLE_RATE`, which is at least `0` and below `2 * PI = 157/25`. -/
theorem SineWaveGenerator.phase_outside_wrap_range :
    (∃ (g : SineWaveGenerator ℚ) (blocks : List (List ℚ)),
      feedBlocks (SineWaveGenerator.generateBlock id) (SineWaveGenerator.new (-1000 : ℚ))
          [List.replicate 480 0] = .ok (g, blocks) ∧
      g.phase = -314 / 5 ∧
      g.phase ≠ toIcoMod (two_PI_pos : (0 : ℚ) < 2 * PI) 0
        (((1 : ℕ) : ℚ) * (BLOCK_SIZE : ℚ) * (2 * PI) * (-1000) / (SAMPLE_RATE : ℚ))) ∧
    (∃ (g : SineWaveGenerator ℚ) (blocks : List (List ℚ)),
      feedBlocks (SineWaveGenerator.generateBlock id) (SineWaveGenerator.new (96000 : ℚ))
          [List.replicate 480 0] = .ok (g, blocks) ∧
      g.phase = 15072 / 5 ∧
      g.phase ≠ toIcoMod (two_PI_pos : (0 : ℚ) < 2 * PI) 0
        (((1 : ℕ) : ℚ) * (BLOCK_SIZE : ℚ) * (2 * PI) * 96000 / (SAMPLE_RATE : ℚ))) := by
  have hlen : ∀ b ∈ [List.replicate 480 (0 : ℚ)], b.length = BLOCK_SIZE := by
    intro b hb
    rw [List.mem_singleton] at hb
    rw [hb, List.length_replicate, BLOCK_SIZE_eq]
  constructor
  · obtain ⟨blocks, h⟩ := SineWaveGenerator.feedBlocks_phase id _ hlen
      (SineWaveGenerator.new (-1000 : ℚ))
    have hphase : (phaseStep (-1000 : ℚ))^[[List.replicate 480 (0 : ℚ)].length * BLOCK_SIZE] 0 =
        -314 / 5 := by
      rw [iterate_phaseStep_of_nonpos (-1000 : ℚ) 0 (by norm_num) two_PI_pos]
      rw [List.length_singleton, BLOCK_SIZE_eq]
      unfold PI SAMPLE_RATE
      norm_num
    refine ⟨_, blocks, h, hphase, ?_⟩
    show (phaseStep (-1000 : ℚ))^[[List.replicate 480 (0 : ℚ)].length * BLOCK_SIZE] 0 ≠ _
    rw [hphase]
    apply ne_of_lt
    exact lt_of_lt_of_le (by norm_num) (left_le_toIcoMod _ _ _)
  · obtain ⟨blocks, h⟩ := SineWaveGenerator.feedBlocks_phase id _ hlen
      (SineWaveGenerator.new (96000 : ℚ))
    have hphase : (phaseStep (96000 : ℚ))^[[List.replicate 480 (0 : ℚ)].length * BLOCK_SIZE] 0 =
        15072 / 5 := by
      rw [iterate_phaseStep_of_large (96000 : ℚ) 0 (by unfold SAMPLE_RATE; norm_num) (le_refl 0)]
      rw [List.length_singleton, BLOCK_SIZE_eq]
      unfold PI SAMPLE_RATE
      norm_num
    refine ⟨_, blocks, h, hphase, ?_⟩
    show (phaseStep (96000 : ℚ))^[[List.replicate 480 (0 : ℚ)].length * BLOCK_SIZE] 0 ≠ _
    rw [hphase]
    apply ne_of_gt
    refine lt_of_lt_of_le (toIcoMod_lt_right _ _ _) ?_
    unfold PI
    norm_num

/-- C5 (amended). With exact arithmetic in an Archimedean ordered field, for every frequency `f`
with `0 ≤ f ≤ SAMPLE_RATE` and every `k`, the phase of a fresh `SineWaveGenerator(f)` after `k`
calls of `generateBlock` (each on a buffer of `BLOCK_SIZE` samples) is the representative in
`[0, 2 * PI)` of `k * BLOCK_SIZE * (2 * PI) * f / SAMPLE_RATE` modulo `2 * PI`, where `PI` is the
program's constant. -/
theorem SineWaveGenerator.phase_after_calls_mod {α : Type} [LinearOrderedField α] [Archimedean α]
    (sin : α → α) (f : α) (hf0 : 0 ≤ f) (hf1 : f ≤ (SAMPLE_RATE : α))
    (buffers : List (List α)) (hlen : ∀ b ∈ buffers, b.length = BLOCK_SIZE) :
    ∃ (g : SineWaveGenerator α) (blocks : List (List α)),
      feedBlocks (SineWaveGenerator.generateBlock sin) (SineWaveGenerator.new f) buffers =
        .ok (g, blocks) ∧
      g.phase = toIcoMod (two_PI_pos : (0 : α) < 2 * PI) 0
        ((buffers.length : α) * (BLOCK_SIZE : α) * (2 * PI) * f / (SAMPLE_RATE : α)) := by
  obtain ⟨blocks, h⟩ := SineWaveGenerator.feedBlocks_phase sin buffers hlen
    (SineWaveGenerator.new f)
  refine ⟨_, blocks, h, ?_⟩
  obtain ⟨⟨h0, h1⟩, z, hz⟩ := iterate_phaseStep_wrapped f 0 hf0 hf1 (le_refl 0) two_PI_pos
    (buffers.length * BLOCK_SIZE)
  symm
  rw [toIcoMod_eq_iff]
  refine ⟨⟨h0, by rw [zero_add]; exact h1⟩, z, ?_⟩
  show _ = (phaseStep f)^[buffers.length * BLOCK_SIZE] 0 + z • (2 * PI)
  rw [← hz]
  push_cast
  ring

theorem SineWaveGenerator.phase_after_calls_mod_witness :
    ((0 : ℚ) ≤ 1000 ∧ (1000 : ℚ) ≤ (SAMPLE_RATE : ℚ) ∧
      ∀ b ∈ [List.replicate 480 (0 : ℚ), List.replicate 480 (0 : ℚ)], b.length = BLOCK_SIZE) ∧
    ∃ (g : SineWaveGenerator ℚ) (blocks : List (List ℚ)),
      feedBlocks (SineWaveGenerator.generateBlock id) (SineWaveGenerator.new (1000 : ℚ))
          [List.replicate 480 (0 : ℚ), List.replicate 480 (0 : ℚ)] = .ok (g, blocks) ∧
      g.phase = toIcoMod (two_PI_pos : (0 : ℚ) < 2 * PI) 0
        (([List.replicate 480 (0 : ℚ), List.replicate 480 (0 : ℚ)].length : ℚ) *
          (BLOCK_SIZE : ℚ) * (2 * PI) * 1000 / (SAMPLE_RATE : ℚ)) :=
  have hlen : ∀ b ∈ [List.replicate 480 (0 : ℚ), List.replicate 480 (0 : ℚ)],
      b.length = BLOCK_SIZE := by
    intro b hb
    simp only [List.mem_cons, List.mem_singleton, List.not_mem_nil, or_false, or_self] at hb
    rw [hb, List.length_replicate, BLOCK_SIZE_eq]
  have hf1 : (1000 : ℚ) ≤ (SAMPLE_RATE : ℚ) := by unfold SAMPLE_RATE; norm_num
  ⟨⟨by norm_num, hf1, hlen⟩,
   SineWaveGenerator.phase_after_calls_mod id 1000 (by norm_num) hf1 _ hlen⟩

/-! ## C6: the shipped configuration, stages in list order -/

/-- C6 (evaluation at the failing input). In the shipped configuration (`SineWaveGenerator(1000)`,
`StaticGainControl(2.0)`, `Delay(4800)`), with the stages applied in list order in both of the
first two cycles and exact real arithmetic, the emitted sample of global index `481` is
`sin(2 * 3.14 * 1000 / 48000) * 2`, which is not `0`, although `481 < 4800`. -/
theorem mainLoop_sample_481_nonzero (stack0 stack1 : StackBuffer ℝ) :
    ∃ (st : MainState ℝ) (out : List (List ℝ)),
      mainLoop Real.sin MainState.init [([0, 1], stack0), ([0, 1], stack1)] = .ok (st, out) ∧
      out.flatten[481]? = some (Real.sin (2 * 3.14 * 1000 / 48000) * 2) ∧
      Real.sin (2 * 3.14 * 1000 / 48000) * 2 ≠ 0 := by
  have hline : BLOCK_SIZE ≤ (List.replicate 4800 (0 : ℝ)).length := by
    rw [List.length_replicate, BLOCK_SIZE_eq]; omega
  have hsamples := length_samples Real.sin (1000 : ℝ) 0
  have hmap : (List.map (fun x => x * (2 : ℝ)) ((List.range BLOCK_SIZE).map
      (fun i => Real.sin ((phaseStep (1000 : ℝ))^[i] 0)))).length = BLOCK_SIZE := by
    rw [List.length_map, hsamples]
  have hline2 : BLOCK_SIZE ≤ (List.map (fun x => x * (2 : ℝ)) ((List.range BLOCK_SIZE).map
      (fun i => Real.sin ((phaseStep (1000 : ℝ))^[i] 0)))
        ++ (List.replicate 4800 (0 : ℝ)).drop BLOCK_SIZE).length := by
    rw [List.length_append, hmap]; omega
  refine ⟨_, _,
    feedBlocks_cons_of _ _ _ _ _ _ _ _
      (mainCycle_gain_first Real.sin (SineWaveGenerator.mk 1000 0) 2 _ hline stack0)
      (feedBlocks_cons_of _ _ _ _ _ _ _ _
        (mainCycle_gain_first Real.sin _ 2 _ hline2 stack1) (feedBlocks_nil _ _)), ?_, ?_⟩
  · have hpre : (List.take BLOCK_SIZE (List.replicate 4800 (0 : ℝ))).length = 480 := by
      rw [List.length_take, List.length_replicate, BLOCK_SIZE_eq]; rfl
    simp only [List.flatten_cons, List.flatten_nil, List.append_nil]
    rw [List.getElem?_append_right (by omega), hpre, take_block_append _ _ hmap,
      List.getElem?_map, getElem?_samples_one, phaseStep_1000_zero]
    rfl
  · exact mul_ne_zero (ne_of_gt sin_first_step_pos) (by norm_num)

/-! ## C7: gain before delay against delay before gain -/

theorem runInListOrder_pair {α : Type} [Mul α] (p q : Processor α) (buffer : List α) :
    runInListOrder [p, q] buffer = runThreads [0, 1] [p, q] buffer := rfl

/-- The two orders on one stream, started from delay lines that correspond (the first holds the
samples of the second multiplied by the gain): the blocks emitted are the same and the delay
lines still correspond afterwards. -/
theorem feedBlocks_gain_delay_swapped {α : Type} [Mul α] (g : α) (blocks : List (List α))
    (hlen : ∀ b ∈ blocks, b.length = BLOCK_SIZE) (history : List α)
    (hline : BLOCK_SIZE ≤ history.length) :
    ∃ (D : List α) (out : List (List α)),
      feedBlocks runInListOrder
          [Processor.staticGainControl (StaticGainControl.mk g),
           Processor.delay (Delay.mk (history.map (fun x => x * g)))] blocks =
        .ok ([Processor.staticGainControl (StaticGainControl.mk g),
              Processor.delay (Delay.mk (D.map (fun x => x * g)))], out) ∧
      feedBlocks runInListOrder
          [Processor.delay (Delay.mk history),
           Processor.staticGainControl (StaticGainControl.mk g)] blocks =
        .ok ([Processor.delay (Delay.mk D),
              Processor.staticGainControl (StaticGainControl.mk g)], out) ∧
      D.length = history.length ∧ out.length = blocks.length := by
  induction blocks generalizing history with
  | nil => exact ⟨history, [], rfl, rfl, rfl, rfl⟩
  | cons b bs ih =>
    have hb : b.length = BLOCK_SIZE := hlen b (List.mem_cons_self _ _)
    have hline1 : BLOCK_SIZE ≤ (history.map (fun x => x * g)).length := by
      rw [List.length_map]; exact hline
    have hline2 : BLOCK_SIZE ≤ (b ++ history.drop BLOCK_SIZE).length := by
      rw [List.length_append, hb]; omega
    obtain ⟨D, out, h1, h2, h3, h4⟩ :=
      ih (fun c hc => hlen c (List.mem_cons_of_mem _ hc)) (b ++ history.drop BLOCK_SIZE) hline2
    refine ⟨D, (history.take BLOCK_SIZE).map (fun x => x * g) :: out, ?_, ?_, ?_, ?_⟩
    · rw [feedBlocks, runInListOrder_pair, runThreads_gain_delay g _ b hline1 hb]
      simp only
      rw [← List.map_drop, ← List.map_append, h1, List.map_take]
    · rw [feedBlocks, runInListOrder_pair, runThreads_swapped g history b hline hb]
      simp only
      rw [h2]
    · rw [h3, List.length_append, List.length_drop, hb]
      omega
    · rw [List.length_cons, List.length_cons, h4]

theorem map_mul_replicate_zero {α : Type} [MulZeroClass α] (g : α) (L : Nat) :
    (List.replicate L (0 : α)).map (fun x => x * g) = List.replicate L 0 := by
  rw [List.map_replicate, zero_mul]

/-- C7 (counterexample). For `g = 2` and `L = 4800`, with exact rational arithmetic, no stream of
blocks of `BLOCK_SIZE` samples separates the two orders: fed the same stream, fresh
`[StaticGainControl(2), Delay(4800)]` and fresh `[Delay(4800), StaticGainControl(2)]`, each
applied in list order, emit the same blocks. -/
theorem no_stream_separates_the_orders :
    ¬ ∃ blocks : List (List ℚ), (∀ b ∈ blocks, b.length = BLOCK_SIZE) ∧
      Except.map Prod.snd (feedBlocks runInListOrder
          [.staticGainControl { gain := (2 : ℚ) }, .delay (Delay.new 4800)] blocks) ≠
      Except.map Prod.snd (feedBlocks runInListOrder
          [.delay (Delay.new 4800), .staticGainControl { gain := (2 : ℚ) }] blocks) := by
  rintro ⟨blocks, hlen, hne⟩
  have hline : BLOCK_SIZE ≤ (List.replicate 4800 (0 : ℚ)).length := by
    rw [List.length_replicate, BLOCK_SIZE_eq]; omega
  obtain ⟨D, out, h1, h2, -, -⟩ := feedBlocks_gain_delay_swapped (2 : ℚ) blocks hlen _ hline
  rw [map_mul_replicate_zero] at h1
  apply hne
  unfold Delay.new
  rw [h1, h2]
  rfl

/-- C7 (amended). For `g = 2` and `L = 4800`, with exact arithmetic (samples in any semiring),
on every stream of blocks of `BLOCK_SIZE` samples a fresh `[StaticGainControl(2), Delay(4800)]`
and a fresh `[Delay(4800), StaticGainControl(2)]`, each applied in list order to the stream,
both return normally and emit the same sequence of blocks, one per input block. The order
shows only in the state left behind: the gains are unchanged, both `delay_line`s have length
`4800`, and the `delay_line` of the first pipeline holds the samples of the `delay_line` `D` of
the second multiplied by `2`. -/
theorem gain_delay_orders_emit_the_same {α : Type} [Semiring α] (blocks : List (List α))
    (hlen : ∀ b ∈ blocks, b.length = BLOCK_SIZE) :
    ∃ (D : List α) (out : List (List α)),
      feedBlocks runInListOrder
          [Processor.staticGainControl (StaticGainControl.mk (2 : α)),
           Processor.delay (Delay.new 4800)] blocks =
        .ok ([Processor.staticGainControl (StaticGainControl.mk (2 : α)),
              Processor.delay (Delay.mk (D.map (fun x => x * 2)))], out) ∧
      feedBlocks runInListOrder
          [Processor.delay (Delay.new 4800),
           Processor.staticGainControl (StaticGainControl.mk (2 : α))] blocks =
        .ok ([Processor.delay (Delay.mk D),
              Processor.staticGainControl (StaticGainControl.mk (2 : α))], out) ∧
      D.length = 4800 ∧ out.length = blocks.length := by
  have hline : BLOCK_SIZE ≤ (List.replicate 4800 (0 : α)).length := by
    rw [List.length_replicate, BLOCK_SIZE_eq]; omega
  obtain ⟨D, out, h1, h2, h3, h4⟩ := feedBlocks_gain_delay_swapped (2 : α) blocks hlen _ hline
  rw [map_mul_replicate_zero] at h1
  rw [List.length_replicate] at h3
  exact ⟨D, out, h1, h2, h3, h4⟩

theorem gain_delay_orders_emit_the_same_witness :
    (∀ b ∈ [List.replicate 480 (1 : ℚ), List.replicate 480 (5 : ℚ)], b.length = BLOCK_SIZE) ∧
    ∃ (D : List ℚ) (out : List (List ℚ)),
      feedBlocks runInListOrder
          [Processor.staticGainControl (StaticGainControl.mk (2 : ℚ)),
           Processor.delay (Delay.new 4800)]
          [List.replicate 480 (1 : ℚ), List.replicate 480 (5 : ℚ)] =
        .ok ([Processor.staticGainControl (StaticGainControl.mk (2 : ℚ)),
              Processor.delay (Delay.mk (D.map (fun x => x * 2)))], out) ∧
      feedBlocks runInListOrder
          [Processor.delay (Delay.new 4800),
           Processor.staticGainControl (StaticGainControl.mk (2 : ℚ))]
          [List.replicate 480 (1 : ℚ), List.replicate 480 (5 : ℚ)] =
        .ok ([Processor.delay (Delay.mk D),
              Processor.staticGainControl (StaticGainControl.mk (2 : ℚ))], out) ∧
      D.length = 4800 ∧
      out.length = [List.replicate 480 (1 : ℚ), List.replicate 480 (5 : ℚ)].length :=
  have hlen : ∀ b ∈ [List.replicate 480 (1 : ℚ), List.replicate 480 (5 : ℚ)],
      b.length = BLOCK_SIZE := by
    intro b hb
    simp only [List.mem_cons, List.mem_singleton, List.not_mem_nil, or_false] at hb
    rcases hb with hb | hb <;> rw [hb, List.length_replicate, BLOCK_SIZE_eq]
  ⟨hlen, gain_delay_orders_emit_the_same _ hlen⟩

/-! ## C8, C9: subscripts of `delay_line` -/

/-- C8 (evaluation at the failing input). For every block `B`, `Delay(0).processBlock(B)` does
not return: its first action, the read `delay_line[0]` of iteration `i = 0`, is outside the
empty `delay_line` (the `% delay_line.size()` of the same iteration would divide by `0`). No
pass-through takes place. -/
theorem Delay.processBlock_zero_faults {α : Type} [Zero α] (B : List α) :
    Delay.processBlock (Delay.new 0 : Delay α) B = .error (.delayReadOutOfRange 0 0) ∧
      (Delay.new 0 : Delay α).delay_line.length = 0 := by
  have hB : (Delay.new 0 : Delay α).delay_line.length ≤ B.length := Nat.zero_le _
  have hshort : (Delay.new 0 : Delay α).delay_line.length < BLOCK_SIZE := by
    rw [BLOCK_SIZE_eq]; exact Nat.zero_lt_succ _
  exact ⟨Delay.processBlock_short _ B hshort hB, rfl⟩

/-- C9 (evaluation at the failing inputs). For every delay length `L < BLOCK_SIZE` and every block
`B` of `BLOCK_SIZE` samples, `Delay(L).processBlock(B)` reaches the out-of-bounds branch: the read
`delay_line[i]` of iteration `i = L` is at index `L`, not below the size `L` of `delay_line`. -/
theorem Delay.processBlock_reads_past_short_line {α : Type} [Zero α] (L : Nat)
    (hL : L < BLOCK_SIZE) (B : List α) (hB : B.length = BLOCK_SIZE) :
    Delay.processBlock (Delay.new L : Delay α) B = .error (.delayReadOutOfRange L L) := by
  have hlen : (Delay.new L : Delay α).delay_line.length = L := List.length_replicate _ _
  have h := Delay.processBlock_short (Delay.new L : Delay α) B (by rw [hlen]; exact hL)
    (by rw [hlen, hB]; exact Nat.le_of_lt hL)
  rw [hlen] at h
  exact h

theorem Delay.processBlock_reads_past_short_line_witness :
    (100 < BLOCK_SIZE ∧ (List.replicate 480 (7 : ℤ)).length = BLOCK_SIZE) ∧
    Delay.processBlock (Delay.new 100 : Delay ℤ) (List.replicate 480 (7 : ℤ)) =
      .error (.delayReadOutOfRange 100 100) :=
  have hL : 100 < BLOCK_SIZE := by rw [BLOCK_SIZE_eq]; omega
  have hB : (List.replicate 480 (7 : ℤ)).length = BLOCK_SIZE := by
    rw [List.length_replicate, BLOCK_SIZE_eq]
  ⟨⟨hL, hB⟩, Delay.processBlock_reads_past_short_line 100 hL _ hB⟩

/-! ## C10: phase continuity across blocks -/

/-- C10. For every frequency `f`, every starting phase and every `k`, `k` consecutive calls of
`generateBlock` (each on a buffer of `BLOCK_SIZE` samples) return normally; they produce `k`
blocks whose concatenation is the list of samples emitted by iterating the single-sample step
`k * BLOCK_SIZE` times from the starting phase, the final phase is the phase reached by that
iteration, and the frequency is unchanged. -/
theorem SineWaveGenerator.generateBlock_phase_continuity {α : Type} [LinearOrderedField α]
    (sin : α → α) (f phase : α) (buffers : List (List α))
    (hlen : ∀ b ∈ buffers, b.length = BLOCK_SIZE) :
    ∃ blocks : List (List α),
      feedBlocks (SineWaveGenerator.generateBlock sin) { frequency := f, phase := phase } buffers =
        .ok ({ frequency := f
               phase := (iterateSampleStep sin f (buffers.length * BLOCK_SIZE) phase).2 },
             blocks) ∧
      blocks.length = buffers.length ∧
      blocks.flatten = (iterateSampleStep sin f (buffers.length * BLOCK_SIZE) phase).1 :=
  SineWaveGenerator.feedBlocks_generateBlock sin buffers hlen { frequency := f, phase := phase }

theorem SineWaveGenerator.generateBlock_phase_continuity_witness :
    (∀ b ∈ [List.replicate 480 (0 : ℚ), List.replicate 480 (9 : ℚ)], b.length = BLOCK_SIZE) ∧
    ∃ blocks : List (List ℚ),
      feedBlocks (SineWaveGenerator.generateBlock id) (SineWaveGenerator.mk (1000 : ℚ) 1)
          [List.replicate 480 (0 : ℚ), List.replicate 480 (9 : ℚ)] =
        .ok (SineWaveGenerator.mk (1000 : ℚ)
               (iterateSampleStep id (1000 : ℚ)
                 ([List.replicate 480 (0 : ℚ), List.replicate 480 (9 : ℚ)].length * BLOCK_SIZE)
                 1).2,
             blocks) ∧
      blocks.length = [List.replicate 480 (0 : ℚ), List.replicate 480 (9 : ℚ)].length ∧
      blocks.flatten = (iterateSampleStep id (1000 : ℚ)
        ([List.replicate 480 (0 : ℚ), List.replicate 480 (9 : ℚ)].length * BLOCK_SIZE) 1).1 :=
  have hlen : ∀ b ∈ [List.replicate 480 (0 : ℚ), List.replicate 480 (9 : ℚ)],
      b.length = BLOCK_SIZE := by
    intro b hb
    simp only [List.mem_cons, List.mem_singleton, List.not_mem_nil, or_false] at hb
    rcases hb with hb | hb <;> rw [hb, List.length_replicate, BLOCK_SIZE_eq]
  ⟨hlen, SineWaveGenerator.generateBlock_phase_continuity id 1000 1 _ hlen⟩

/-! ## C11: the range of the phase -/

/-- C11. With exact arithmetic, for every frequency `f` with `0 ≤ f < SAMPLE_RATE`, the phase of
a `SineWaveGenerator(f)` is in `[0, 2 * PI)` (`PI` the program's constant) at construction and
after every sample step of every call of `generateBlock`: after any number of complete calls
followed by the first `i ≤ BLOCK_SIZE` iterations of the loop of a further call, all of which
run without fault. -/
theorem SineWaveGenerator.phase_in_wrap_range {α : Type} [LinearOrderedField α] (sin : α → α)
    (f : α) (hf0 : 0 ≤ f) (hf1 : f < (SAMPLE_RATE : α))
    (buffers : List (List α)) (hlen : ∀ b ∈ buffers, b.length = BLOCK_SIZE)
    (buffer : List α) (hbuf : buffer.length = BLOCK_SIZE) (i : Nat) (hi : i ≤ BLOCK_SIZE) :
    (0 ≤ (SineWaveGenerator.new f).phase ∧ (SineWaveGenerator.new f).phase < 2 * PI) ∧
    ∃ (g g' : SineWaveGenerator α) (blocks : List (List α)) (halfBlock : List α),
      feedBlocks (SineWaveGenerator.generateBlock sin) (SineWaveGenerator.new f) buffers =
        .ok (g, blocks) ∧
      forLoop (SineWaveGenerator.generateBody sin) i (g, buffer) = .ok (g', halfBlock) ∧
      0 ≤ g'.phase ∧ g'.phase < 2 * PI := by
  refine ⟨⟨le_refl (0 : α), two_PI_pos⟩, ?_⟩
  obtain ⟨blocks, h⟩ := SineWaveGenerator.feedBlocks_phase sin buffers hlen
    (SineWaveGenerator.new f)
  have hloop := SineWaveGenerator.forLoop_generateBody sin
    (SineWaveGenerator.mk f ((phaseStep f)^[buffers.length * BLOCK_SIZE] 0)) buffer i
    (by rw [hbuf]; exact hi)
  obtain ⟨⟨h0, h1⟩, -⟩ := iterate_phaseStep_wrapped f 0 hf0 (le_of_lt hf1) (le_refl 0) two_PI_pos
    (i + buffers.length * BLOCK_SIZE)
  rw [Function.iterate_add_apply] at h0 h1
  exact ⟨_, _, blocks, _, h, hloop, h0, h1⟩

theorem SineWaveGenerator.phase_in_wrap_range_witness :
    ((0 : ℚ) ≤ 1000 ∧ (1000 : ℚ) < (SAMPLE_RATE : ℚ) ∧
      (∀ b ∈ [List.replicate 480 (0 : ℚ)], b.length = BLOCK_SIZE) ∧
      (List.replicate 480 (0 : ℚ)).length = BLOCK_SIZE ∧ 7 ≤ BLOCK_SIZE) ∧
    ((0 ≤ (SineWaveGenerator.new (1000 : ℚ)).phase ∧
        (SineWaveGenerator.new (1000 : ℚ)).phase < 2 * PI) ∧
    ∃ (g g' : SineWaveGenerator ℚ) (blocks : List (List ℚ)) (halfBlock : List ℚ),
      feedBlocks (SineWaveGenerator.generateBlock id) (SineWaveGenerator.new (1000 : ℚ))
          [List.replicate 480 (0 : ℚ)] = .ok (g, blocks) ∧
      forLoop (SineWaveGenerator.generateBody id) 7 (g, List.replicate 480 (0 : ℚ)) =
        .ok (g', halfBlock) ∧
      0 ≤ g'.phase ∧ g'.phase < 2 * PI) :=
  have hf1 : (1000 : ℚ) < (SAMPLE_RATE : ℚ) := by unfold SAMPLE_RATE; norm_num
  have hbuf : (List.replicate 480 (0 : ℚ)).length = BLOCK_SIZE := by
    rw [List.length_replicate, BLOCK_SIZE_eq]
  have hlen : ∀ b ∈ [List.replicate 480 (0 : ℚ)], b.length = BLOCK_SIZE := by
    intro b hb
    rw [List.mem_singleton] at hb
    rw [hb, hbuf]
  have hi : 7 ≤ BLOCK_SIZE := by rw [BLOCK_SIZE_eq]; omega
  ⟨⟨by norm_num, hf1, hlen, hbuf, hi⟩,
   SineWaveGenerator.phase_in_wrap_range id 1000 (by norm_num) hf1 _ hlen _ hbuf 7 hi⟩

/-! ## C12: lengths, and the indices written -/

/-- A loop whose body, besides its effect, appends the iteration index to a log on every
iteration it completes, ends with the log extended by `0, …, n - 1`. -/
theorem forLoop_logged {σ : Type} (body : Nat → σ → Except Fault σ)
    (traced : Nat → σ × List Nat → Except Fault (σ × List Nat))
    (h : ∀ i s log, traced i (s, log) = Except.map (fun s' => (s', log ++ [i])) (body i s))
    (n : Nat) (s : σ) (log : List Nat) :
    forLoop traced n (s, log) =
      Except.map (fun s' => (s', log ++ List.range n)) (forLoop body n s) := by
  induction n with
  | zero =>
    show Except.ok (s, log) = Except.ok (s, log ++ List.range 0)
    rw [List.range_zero, List.append_nil]
  | succ k ih =>
    rw [forLoop_succ, ih, forLoop_succ]
    cases hk : forLoop body k s with
    | error e => rfl
    | ok s' =>
      show traced k (s', log ++ List.range k) = _
      rw [h, List.range_succ, List.append_assoc]

theorem StaticGainControl.processBodyTraced_gain_eq {α : Type} [Mul α] (i : Nat)
    (s : StaticGainControl α × List α) (log : List Nat) :
    StaticGainControl.processBodyTraced i (s, log) =
      Except.map (fun s' => (s', log ++ [i])) (StaticGainControl.processBody i s) := by
  unfold StaticGainControl.processBodyTraced StaticGainControl.processBody
  cases s.2[i]? <;> rfl

theorem Delay.processBodyTraced_delay_eq {α : Type} (i : Nat) (s : DelayLoop α) (log : List Nat) :
    Delay.processBodyTraced i (s, log) =
      Except.map (fun s' => (s', log ++ [i])) (Delay.processBody i s) := by
  unfold Delay.processBodyTraced Delay.processBody
  cases s.self.delay_line[i]? with
  | none => rfl
  | some d =>
    cases s.buffer[i]? with
    | none => rfl
    | some x =>
      by_cases h1 : s.delay_index < s.self.delay_line.length
      · by_cases h2 : (s.self.delay_line.set s.delay_index x).length = 0
        · simp only [h1, h2, if_true]
          rfl
        · simp only [h1, h2, if_true, if_false]
          rfl
      · simp only [h1, if_false]
        rfl

theorem StaticGainControl.processBlockTraced_gain_eq {α : Type} [Mul α] (self : StaticGainControl α)
    (B : List α) (hB : B.length = BLOCK_SIZE) :
    StaticGainControl.processBlockTraced self B =
      .ok ((self, B.map (fun x => x * self.gain)), List.range BLOCK_SIZE) := by
  have h := StaticGainControl.processBlock_gain_eq self B hB
  unfold StaticGainControl.processBlock at h
  unfold StaticGainControl.processBlockTraced
  rw [forLoop_logged StaticGainControl.processBody StaticGainControl.processBodyTraced
    StaticGainControl.processBodyTraced_gain_eq, h]
  rfl

theorem Delay.processBlockTraced_delay_eq {α : Type} (self : Delay α) (B : List α)
    (hline : BLOCK_SIZE ≤ self.delay_line.length) (hB : B.length = BLOCK_SIZE) :
    Delay.processBlockTraced self B =
      .ok (({ delay_line := B ++ self.delay_line.drop BLOCK_SIZE },
            self.delay_line.take BLOCK_SIZE), List.range BLOCK_SIZE) := by
  unfold Delay.processBlockTraced
  rw [forLoop_logged Delay.processBody Delay.processBodyTraced Delay.processBodyTraced_delay_eq,
    Delay.forLoop_delay_body self.delay_line B BLOCK_SIZE hline (le_of_eq hB.symm)]
  show Except.ok ((Delay.mk (B.take BLOCK_SIZE ++ self.delay_line.drop BLOCK_SIZE),
      self.delay_line.take BLOCK_SIZE ++ B.drop BLOCK_SIZE), [] ++ List.range BLOCK_SIZE) =
    Except.ok ((Delay.mk (B ++ self.delay_line.drop BLOCK_SIZE),
      self.delay_line.take BLOCK_SIZE), List.range BLOCK_SIZE)
  rw [List.nil_append]
  nth_rewrite 1 [← hB]
  nth_rewrite 3 [← hB]
  rw [List.take_length, List.drop_length, List.append_nil]

/-- C12. For every block `B` of `BLOCK_SIZE` samples, `StaticGainControl::processBlock` and, for
a `delay_line` of length `L ≥ BLOCK_SIZE`, `Delay::processBlock` return normally with a block of
length `BLOCK_SIZE`; the stores they execute into the block are, in order, at the indices
`0, 1, …, BLOCK_SIZE - 1`, each index once (the run with the log gives the same object and the
same block, and the log `List.range BLOCK_SIZE`), and they leave `B[i] * gain`, respectively
the former `delay_line[i]`, at index `i`; and `Delay::processBlock` leaves `delay_line` with
length `L`. -/
theorem processBlock_length_invariant {α : Type} [Mul α] (g : α) (L : Nat) (history B : List α)
    (hB : B.length = BLOCK_SIZE) (hline : history.length = L) (hL : BLOCK_SIZE ≤ L) :
    (∃ out : List α,
      StaticGainControl.processBlock (StaticGainControl.mk g) B =
        .ok (StaticGainControl.mk g, out) ∧
      StaticGainControl.processBlockTraced (StaticGainControl.mk g) B =
        .ok ((StaticGainControl.mk g, out), List.range BLOCK_SIZE) ∧
      out.length = BLOCK_SIZE ∧
      ∀ (i : Nat) (hi : i < B.length), out[i]? = some (B[i] * g)) ∧
    (∃ (d : Delay α) (out : List α),
      Delay.processBlock (Delay.mk history) B = .ok (d, out) ∧
      Delay.processBlockTraced (Delay.mk history) B = .ok ((d, out), List.range BLOCK_SIZE) ∧
      out.length = BLOCK_SIZE ∧ d.delay_line.length = L ∧
      ∀ i, i < BLOCK_SIZE → out[i]? = history[i]?) := by
  have hline2 : BLOCK_SIZE ≤ history.length := by rw [hline]; exact hL
  constructor
  · refine ⟨_, StaticGainControl.processBlock_gain_eq _ B hB,
      StaticGainControl.processBlockTraced_gain_eq _ B hB, ?_, ?_⟩
    · rw [List.length_map, hB]
    · intro i hi
      rw [List.getElem?_map, List.getElem?_eq_getElem hi]
      rfl
  · refine ⟨_, _, Delay.processBlock_delay_eq _ B hline2 hB,
      Delay.processBlockTraced_delay_eq _ B hline2 hB, ?_, ?_, ?_⟩
    · rw [List.length_take, Nat.min_eq_left hline2]
    · show (B ++ history.drop BLOCK_SIZE).length = L
      rw [List.length_append, List.length_drop, hB, hline]
      omega
    · intro i hi
      exact List.getElem?_take_of_lt hi

theorem processBlock_length_invariant_witness :
    ((List.replicate 480 (3 : ℤ)).length = BLOCK_SIZE ∧
      (List.replicate 4800 (0 : ℤ)).length = 4800 ∧ BLOCK_SIZE ≤ 4800) ∧
    ((∃ out : List ℤ,
      StaticGainControl.processBlock (StaticGainControl.mk (2 : ℤ)) (List.replicate 480 (3 : ℤ)) =
        .ok (StaticGainControl.mk 2, out) ∧
      StaticGainControl.processBlockTraced (StaticGainControl.mk (2 : ℤ))
          (List.replicate 480 (3 : ℤ)) =
        .ok ((StaticGainControl.mk 2, out), List.range BLOCK_SIZE) ∧
      out.length = BLOCK_SIZE ∧
      ∀ (i : Nat) (hi : i < (List.replicate 480 (3 : ℤ)).length),
        out[i]? = some ((List.replicate 480 (3 : ℤ))[i] * 2)) ∧
    (∃ (d : Delay ℤ) (out : List ℤ),
      Delay.processBlock (Delay.mk (List.replicate 4800 (0 : ℤ))) (List.replicate 480 (3 : ℤ)) =
        .ok (d, out) ∧
      Delay.processBlockTraced (Delay.mk (List.replicate 4800 (0 : ℤ)))
          (List.replicate 480 (3 : ℤ)) = .ok ((d, out), List.range BLOCK_SIZE) ∧
      out.length = BLOCK_SIZE ∧ d.delay_line.length = 4800 ∧
      ∀ i, i < BLOCK_SIZE → out[i]? = (List.replicate 4800 (0 : ℤ))[i]?)) :=
  have hB : (List.replicate 480 (3 : ℤ)).length = BLOCK_SIZE := by
    rw [List.length_replicate, BLOCK_SIZE_eq]
  have hline : (List.replicate 4800 (0 : ℤ)).length = 4800 := List.length_replicate _ _
  have hL : BLOCK_SIZE ≤ 4800 := by rw [BLOCK_SIZE_eq]; omega
  ⟨⟨hB, hline, hL⟩, processBlock_length_invariant (2 : ℤ) 4800 _ _ hB hline hL⟩

/-! ## C13: the delay is one block -/

/-- C13. For every `L ≥ BLOCK_SIZE` and every non-empty stream of blocks of `BLOCK_SIZE`
samples fed to a fresh `Delay(L)`, every call of `processBlock` returns normally, the first
call outputs `BLOCK_SIZE` zeros, and for every `k ≥ 1` the output block of call `k` is the input
block of call `k - 1`: the stage delays by one block, whatever `L` is. -/
theorem Delay.processBlock_delays_one_block {α : Type} [Zero α] (L : Nat) (hL : BLOCK_SIZE ≤ L)
    (b : List α) (bs : List (List α)) (hlen : ∀ c ∈ b :: bs, c.length = BLOCK_SIZE) :
    ∃ (d : Delay α) (outs : List (List α)),
      feedBlocks Delay.processBlock (Delay.new L) (b :: bs) = .ok (d, outs) ∧
      outs.length = (b :: bs).length ∧
      outs[0]? = some (List.replicate BLOCK_SIZE 0) ∧
      ∀ k, 1 ≤ k → k < (b :: bs).length → outs[k]? = (b :: bs)[k - 1]? := by
  have hline : BLOCK_SIZE ≤ (List.replicate L (0 : α)).length := by
    rw [List.length_replicate]; exact hL
  refine ⟨_, _, Delay.feedBlocks_processBlock b bs hlen _ hline, ?_, ?_, ?_⟩
  · rw [List.length_cons, List.length_dropLast, List.length_cons]
    rfl
  · rw [List.getElem?_cons_zero, List.take_replicate, Nat.min_eq_left hL]
  · intro k hk1 hk2
    obtain ⟨j, rfl⟩ : ∃ j, k = j + 1 := ⟨k - 1, by omega⟩
    rw [List.getElem?_cons_succ, List.getElem?_dropLast, if_pos (by omega), Nat.add_sub_cancel]

theorem Delay.processBlock_delays_one_block_witness :
    (BLOCK_SIZE ≤ 4800 ∧
      ∀ c ∈ [List.replicate 480 (1 : ℤ), List.replicate 480 (2 : ℤ), List.replicate 480 (3 : ℤ)],
        c.length = BLOCK_SIZE) ∧
    ∃ (d : Delay ℤ) (outs : List (List ℤ)),
      feedBlocks Delay.processBlock (Delay.new 4800)
          [List.replicate 480 (1 : ℤ), List.replicate 480 (2 : ℤ), List.replicate 480 (3 : ℤ)] =
        .ok (d, outs) ∧
      outs.length =
        [List.replicate 480 (1 : ℤ), List.replicate 480 (2 : ℤ), List.replicate 480 (3 : ℤ)].length ∧
      outs[0]? = some (List.replicate BLOCK_SIZE 0) ∧
      ∀ k, 1 ≤ k →
        k < [List.replicate 480 (1 : ℤ), List.replicate 480 (2 : ℤ),
              List.replicate 480 (3 : ℤ)].length →
        outs[k]? = [List.replicate 480 (1 : ℤ), List.replicate 480 (2 : ℤ),
                    List.replicate 480 (3 : ℤ)][k - 1]? :=
  have hL : BLOCK_SIZE ≤ 4800 := by rw [BLOCK_SIZE_eq]; omega
  have hlen : ∀ c ∈ [List.replicate 480 (1 : ℤ), List.replicate 480 (2 : ℤ),
      List.replicate 480 (3 : ℤ)], c.length = BLOCK_SIZE := by
    intro c hc
    simp only [List.mem_cons, List.mem_singleton, List.not_mem_nil, or_false] at hc
    rcases hc with hc | hc | hc <;> rw [hc, List.length_replicate, BLOCK_SIZE_eq]
  ⟨⟨hL, hlen⟩, Delay.processBlock_delays_one_block 4800 hL _ _ hlen⟩

end PixelPower
